import Mathlib

/-!
Shallow embedding of the logl log-shipping pipeline (github.com/oicur0t/logl).

The definitions below are translated from the Go sources:
  * `pkg/retry` (retry.Do, calculateBackoff),
  * the tailer's HTTP client and circuit breaker (Client.SendBatch,
    Client.sendRequest, CircuitBreaker),
  * `internal/tailer/batcher.go` (Batcher.Start, Batcher.flush,
    Batcher.flushService),
  * `internal/server/storage.go` (Storage.InsertBatch,
    Storage.sanitizeCollectionName),
  * the tailer's file watcher (Watcher.tailFile, Watcher.loadState).

Machine integers are modelled as `Nat`/`Int`; `time.Duration` and float64
arithmetic in the backoff computation are modelled over `ℚ` (the values in
question are nanosecond counts and jitter factors); Go errors are modelled as
`Option`/sum values; the source of randomness `rand.Float64()` is an explicit
parameter `u ∈ [0,1]`.
-/

namespace Logl

/-! ## pkg/retry: Config, Do, calculateBackoff -/

/-- Retry configuration (Go `retry.Config`): MaxRetries, InitialWait, MaxWait,
Multiplier.  Durations are rational nanosecond counts. -/
structure Config where
  maxRetries : Nat
  initialWait : ℚ
  maxWait : ℚ
  multiplier : ℚ
deriving DecidableEq

/-- The attempt loop of Go `retry.Do`: `remaining` is the number of retries
still allowed after the current attempt, `attempt` is the current attempt
index.  `fn k` is the outcome of the `k`-th call of the attempt function
(`none` = success).  Returns the final outcome together with the number of
calls made.  The inter-attempt wait (which does not change the outcome unless
the context is cancelled, which we do not model) is elided. -/
def retryAux (fn : Nat → Option ε) : Nat → Nat → Option ε × Nat
  | 0, attempt =>
    match fn attempt with
    | none => (none, 1)
    | some e => (some e, 1)
  | r + 1, attempt =>
    match fn attempt with
    | none => (none, 1)
    | some _ =>
      ((retryAux fn r (attempt + 1)).1, (retryAux fn r (attempt + 1)).2 + 1)

/-- Go `retry.Do ctx cfg fn` (with a never-cancelled context): run `fn` up to
`cfg.maxRetries + 1` times, stopping at the first success; return the last
error (if any) and the number of calls made. -/
def retryDo (cfg : Config) (fn : Nat → Option ε) : Option ε × Nat :=
  retryAux fn cfg.maxRetries 0

/-- Go `calculateBackoff attempt cfg`: exponential backoff capped at
`maxWait`, with `±25%` jitter `0.25 * (2*u - 1)` for `u = rand.Float64()`,
floored at `initialWait`. -/
def calculateBackoff (attempt : Nat) (cfg : Config) (u : ℚ) : ℚ :=
  let backoff1 := cfg.initialWait * cfg.multiplier ^ attempt
  let backoff2 := if cfg.maxWait < backoff1 then cfg.maxWait else backoff1
  let jitter := backoff2 * (1/4) * (2 * u - 1)
  let backoff3 := backoff2 + jitter
  if backoff3 < cfg.initialWait then cfg.initialWait else backoff3

/-! ## Circuit breaker and delivery client -/

/-- Go `CircuitBreaker` state: consecutive failures, time of last failure,
threshold and open-duration (`timeout`).  Time is a `Nat` (nanoseconds). -/
structure CircuitBreaker where
  failures : Nat
  lastFailure : Nat
  threshold : Nat
  timeout : Nat
deriving DecidableEq

/-- Go `NewCircuitBreaker threshold timeout` (zero-valued counters). -/
def newCircuitBreaker (threshold timeout : Nat) : CircuitBreaker :=
  ⟨0, 0, threshold, timeout⟩

/-- Go `CircuitBreaker.isOpen` evaluated at wall-clock time `now`: returns
the reported flag together with the (possibly reset) state. -/
def CircuitBreaker.isOpen (cb : CircuitBreaker) (now : Nat) : Bool × CircuitBreaker :=
  if cb.threshold ≤ cb.failures ∧ now - cb.lastFailure < cb.timeout then
    (true, cb)
  else if cb.timeout ≤ now - cb.lastFailure then
    (false, { cb with failures := 0 })
  else
    (false, cb)

/-- Go `CircuitBreaker.recordSuccess`. -/
def recordSuccess (cb : CircuitBreaker) : CircuitBreaker :=
  { cb with failures := 0 }

/-- Go `CircuitBreaker.recordFailure` at time `now`. -/
def recordFailure (cb : CircuitBreaker) (now : Nat) : CircuitBreaker :=
  { cb with failures := cb.failures + 1, lastFailure := now }

/-- Outcome of one HTTP round trip of `Client.sendRequest`: either a
transport-level failure of `httpClient.Do`, or a response status code. -/
inductive HttpOutcome
  | transportError
  | status (code : Nat)
deriving DecidableEq

/-- Error values `Client.sendRequest` can produce. -/
inductive RequestError
  | transport
  | serverError (code : Nat)
  | unexpectedStatus (code : Nat)
deriving DecidableEq

/-- Go `Client.sendRequest` response classification: transport error fails;
`>= 500` fails (retryable); `>= 400` returns nil (terminal, not retried);
anything other than 200/201 fails; 200/201 succeed.  Marshalling and request
construction cannot fail in the model. -/
def sendRequest (o : HttpOutcome) : Option RequestError :=
  match o with
  | .transportError => some .transport
  | .status code =>
    if 500 ≤ code then some (.serverError code)
    else if 400 ≤ code then none
    else if code ≠ 200 ∧ code ≠ 201 then some (.unexpectedStatus code)
    else none

/-- Errors `Client.SendBatch` can return to its caller. -/
inductive ClientError (ε : Type)
  | circuitOpen
  | sendFailed (e : ε)
deriving DecidableEq

/-- Go `Client.SendBatch`: consult the circuit breaker at time `now`; when
open, fail immediately with zero attempts; otherwise run the retry loop on
the per-attempt outcomes `fn` and record success/failure on the breaker
(`endTime` is the wall-clock time at completion).  Returns the result, the
breaker's new state, and the number of attempts performed. -/
def sendBatch (cb : CircuitBreaker) (now endTime : Nat) (cfg : Config)
    (fn : Nat → Option ε) : Option (ClientError ε) × CircuitBreaker × Nat :=
  if (cb.isOpen now).1 then
    (some .circuitOpen, (cb.isOpen now).2, 0)
  else
    match retryDo cfg fn with
    | (none, n) => (none, recordSuccess (cb.isOpen now).2, n)
    | (some e, n) => (some (.sendFailed e), recordFailure (cb.isOpen now).2 endTime, n)

/-! ## Storage engine (internal/server/storage.go) -/

/-- Go `models.LogEntry` (the `_id` ObjectID is elided). -/
structure LogEntry where
  serviceName : String
  hostname : String
  filePath : String
  line : String
  timestamp : Nat
  lineNumber : Nat
deriving DecidableEq

/-- Go `models.LogBatch`. -/
structure LogBatch where
  serviceName : String
  entries : List LogEntry
deriving DecidableEq

/-- Characters the Go regexp `[^a-z0-9_]` leaves untouched are kept, every
other character becomes an underscore. -/
def sanitizeChar (c : Char) : Char :=
  if ('a' ≤ c ∧ c ≤ 'z') ∨ ('0' ≤ c ∧ c ≤ '9') ∨ c = '_' then c else '_'

/-- Go `Storage.sanitizeCollectionName`: lowercase the service name, replace
every character outside `[a-z0-9_]` with `_`, and prepend the configured
collection name space `collPfx`. -/
def sanitizeCollectionName (collPfx serviceName : String) : String :=
  collPfx ++ String.mk ((serviceName.data.map Char.toLower).map sanitizeChar)

/-- The collection name described by the spec's words: the namespace followed
by the identifier lowercased with every character outside `[a-z0-9_]`
replaced by an underscore. -/
def specSanitizedName (collPfx serviceName : String) : String :=
  collPfx ++ String.mk (serviceName.data.map (fun c => sanitizeChar (Char.toLower c)))

/-- Outcome of the MongoDB bulk insert in `Storage.InsertBatch`. -/
inductive BulkResult
  | ok
  | duplicateKey
  | otherError (msg : String)
deriving DecidableEq

/-- Observable side effects of one `Storage.InsertBatch` call. -/
structure InsertEffects where
  collection : Option String
  ensuredIndexes : Bool
  attemptedDocs : List LogEntry
deriving DecidableEq

/-- Go `Storage.InsertBatch`: an empty batch returns nil immediately with no
effect; otherwise the collection is resolved, indexes are ensured (an index
error is only logged), the entries are bulk-inserted, a duplicate-key bulk
error is absorbed as success, and any other bulk error is returned. -/
def insertBatch (collPfx : String) (batch : LogBatch) (bulk : BulkResult) :
    Option String × InsertEffects :=
  if batch.entries.isEmpty then
    (none, ⟨none, false, []⟩)
  else
    let collName := sanitizeCollectionName collPfx batch.serviceName
    let eff : InsertEffects := ⟨some collName, true, batch.entries⟩
    match bulk with
    | .ok => (none, eff)
    | .duplicateKey => (none, eff)
    | .otherError m => (some ("failed to insert batch: " ++ m), eff)

/-! ## Batcher (internal/tailer/batcher.go)

The single accumulation loop of `Batcher.Start` is embedded as a
deterministic transition system: the intake channel is a time-stamped list of
received entries, the `maxWait` ticker is a `deadline` field (ticks due
before an input are processed first), and each flush is recorded in a log.
The delivery client is abstracted to `sendOk : String → Bool` (the success of
`sender.SendBatch` per service). -/

/-- One buffered entry: the service name and the arrival time. -/
structure BEntry where
  svc : String
  t : Nat
deriving DecidableEq

/-- What caused a flush: the size threshold in `Batcher.Start`'s receive
case, the `ticker.C` case, or the final flush on cancellation. -/
inductive Trigger
  | sizeHit
  | timer
  | cancelled
deriving DecidableEq

/-- Record of one executed `Batcher.flushService` send. -/
structure FlushRec where
  time : Nat
  svc : String
  entries : List BEntry
  trigger : Trigger
  sent : Bool
deriving DecidableEq

/-- First-match lookup in the `batches` map (empty slice when absent). -/
def lookupBuf : List (String × List BEntry) → String → List BEntry
  | [], _ => []
  | p :: rest, svc => if p.1 = svc then p.2 else lookupBuf rest svc

/-- Clear a service's buffer (`b.batches[serviceName] = ...[:0]`). -/
def clearBuf : List (String × List BEntry) → String → List (String × List BEntry)
  | [], _ => []
  | p :: rest, svc =>
    if p.1 = svc then (p.1, []) :: clearBuf rest svc else p :: clearBuf rest svc

/-- Append an entry to its service's buffer, creating the buffer on first
use (the receive case of `Batcher.Start`). -/
def appendEntry : List (String × List BEntry) → String → BEntry → List (String × List BEntry)
  | [], svc, e => [(svc, [e])]
  | p :: rest, svc, e =>
    if p.1 = svc then (p.1, p.2 ++ [e]) :: rest else p :: appendEntry rest svc e

/-- Go `Batcher.flushService`: a missing or empty buffer is a no-op success;
otherwise the buffer is copied into a batch, the live buffer is cleared, and
the batch is handed to the sender; the send's error (if any) is returned.
The flushed entries are not re-queued on failure. -/
def flushService (sendOk : String → Bool) (time : Nat) (trig : Trigger)
    (bufs : List (String × List BEntry)) (svc : String) :
    List (String × List BEntry) × List FlushRec × Bool :=
  match lookupBuf bufs svc with
  | [] => (bufs, [], true)
  | e :: rest => (clearBuf bufs svc, [⟨time, svc, e :: rest, trig, sendOk svc⟩], sendOk svc)

/-- The iteration of Go `Batcher.flush` over the collected service names:
`flushService` per name, returning at the first error. -/
def flushPass (sendOk : String → Bool) (time : Nat) (trig : Trigger) :
    List String → List (String × List BEntry) →
    List (String × List BEntry) × List FlushRec × Bool
  | [], bufs => (bufs, [], true)
  | s :: rest, bufs =>
    let r1 := flushService sendOk time trig bufs s
    if r1.2.2 then
      let r2 := flushPass sendOk time trig rest r1.1
      (r2.1, r1.2.1 ++ r2.2.1, r2.2.2)
    else
      (r1.1, r1.2.1, false)

/-- Go `Batcher.flush`: snapshot the service names, then flush each in turn,
stopping at the first send error. -/
def batcherFlush (sendOk : String → Bool) (time : Nat) (trig : Trigger)
    (bufs : List (String × List BEntry)) :
    List (String × List BEntry) × List FlushRec × Bool :=
  flushPass sendOk time trig (bufs.map Prod.fst) bufs

/-- State of the `Batcher.Start` loop: the per-service buffers, the time the
`maxWait` ticker next fires, and the log of executed flushes. -/
structure BState where
  buffers : List (String × List BEntry)
  deadline : Nat
  log : List FlushRec
deriving DecidableEq

/-- Process every ticker expiry due at or before time `t`: each runs
`Batcher.flush` over all buffers and the ticker next fires `maxWait` later.
`fuel` bounds the recursion; `t + 1` suffices whenever `1 ≤ maxWait`. -/
def fireTicks (maxWait : Nat) (sendOk : String → Bool) :
    Nat → Nat → BState → BState
  | 0, _, st => st
  | fuel + 1, t, st =>
    if st.deadline ≤ t then
      let r := batcherFlush sendOk st.deadline .timer st.buffers
      fireTicks maxWait sendOk fuel t ⟨r.1, st.deadline + maxWait, st.log ++ r.2.1⟩
    else st

/-- The receive case of `Batcher.Start` for an entry of service `svc`
arriving at time `t`: due ticks fire first; the entry is appended to its
buffer; if the buffer has reached `maxSize` it is flushed immediately and
the ticker is reset to fire `maxWait` from now. -/
def stepRecv (maxSize maxWait : Nat) (sendOk : String → Bool)
    (st : BState) (t : Nat) (svc : String) : BState :=
  let st1 := fireTicks maxWait sendOk (t + 1) t st
  let bufs := appendEntry st1.buffers svc ⟨svc, t⟩
  if maxSize ≤ (lookupBuf bufs svc).length then
    let r := flushService sendOk t .sizeHit bufs svc
    ⟨r.1, t + maxWait, st1.log ++ r.2.1⟩
  else
    ⟨bufs, st1.deadline, st1.log⟩

/-- A full run of `Batcher.Start`: starting with empty buffers and the ticker
armed for `maxWait`, process the time-ordered received entries, then at
cancellation time `cancelT` fire any due ticks and perform the final
`Batcher.flush`. -/
def batcherRun (maxSize maxWait : Nat) (sendOk : String → Bool)
    (recvs : List (Nat × String)) (cancelT : Nat) : BState :=
  let st0 : BState := ⟨[], maxWait, []⟩
  let st1 := recvs.foldl (fun st p => stepRecv maxSize maxWait sendOk st p.1 p.2) st0
  let st2 := fireTicks maxWait sendOk (cancelT + 1) cancelT st1
  let r := batcherFlush sendOk cancelT .cancelled st2.buffers
  ⟨r.1, st2.deadline, st2.log ++ r.2.1⟩

/-- The time a buffer became non-empty: the arrival time of its first entry. -/
def bufSince (l : List BEntry) : Nat :=
  match l with
  | [] => 0
  | e :: _ => e.t

/-- The timing discipline claimed by the spec: every executed flush happens
either because the buffer reached `maxSize`, or because `maxWait` has elapsed
since the flushed buffer became non-empty. -/
def flushedAtThreshold (maxSize maxWait : Nat) (st : BState) : Prop :=
  ∀ rec ∈ st.log, rec.entries.length = maxSize ∨ maxWait ≤ rec.time - bufSince rec.entries

/-- The latency bound claimed by the spec: no entry is flushed later than
`maxWait` after it arrived. -/
def noLateFlush (maxWait : Nat) (st : BState) : Prop :=
  ∀ rec ∈ st.log, ∀ e ∈ rec.entries, rec.time ≤ e.t + maxWait

/-- Invariant of the `Batcher.Start` loop (all sends succeeding): every
buffer is strictly below `maxSize` (a buffer reaching `maxSize` is flushed on
the spot), every logged flush is of a non-empty batch, a size-triggered flush
carries exactly `maxSize` entries, and the service-name keys are distinct. -/
def LoopInv (maxSize : Nat) (st : BState) : Prop :=
  (∀ p ∈ st.buffers, p.2.length < maxSize)
  ∧ (∀ rec ∈ st.log, rec.entries ≠ [] ∧ (rec.trigger = .sizeHit → rec.entries.length = maxSize))
  ∧ (st.buffers.map Prod.fst).Nodup

/-! ## File watcher start position (Watcher.tailFile / Watcher.loadState) -/

/-- Go `models.FileState`. -/
structure FileState where
  offset : Int
  inode : Nat
  lastRead : Nat
deriving DecidableEq

/-- Whence values of `tail.SeekInfo` as used by `Watcher.tailFile`. -/
inductive SeekWhence
  | seekSet
  | seekEnd
deriving DecidableEq

/-- Go `tail.SeekInfo`. -/
structure SeekInfo where
  offset : Int
  whence : SeekWhence
deriving DecidableEq

/-- Go `Watcher.loadState`: a missing state file leaves the state empty;
otherwise the decoded path-to-state map is used. -/
def loadState (stateFileContents : Option (List (String × FileState))) :
    List (String × FileState) :=
  match stateFileContents with
  | none => []
  | some m => m

/-- First-match association lookup on the loaded watcher state (a Go map with
unique keys). -/
def lookupState : List (String × FileState) → String → Option FileState
  | [], _ => none
  | p :: rest, path => if p.1 = path then some p.2 else lookupState rest path

/-- Go `Watcher.tailFile` seek configuration: default is offset 0 from the
end of the file; when a persisted state entry exists for the path, seek to
its saved offset from the start. -/
def tailStartLocation (st : List (String × FileState)) (path : String) : SeekInfo :=
  match lookupState st path with
  | some fs => ⟨fs.offset, .seekSet⟩
  | none => ⟨0, .seekEnd⟩

/-- Resolve a `SeekInfo` against a file of length `fileLen` to the absolute
byte offset reading starts at. -/
def resolveOffset (fileLen : Int) (si : SeekInfo) : Int :=
  match si.whence with
  | .seekSet => si.offset
  | .seekEnd => fileLen + si.offset

/-! ## Helper lemmas about the batcher's buffer map -/

theorem lookupBuf_appendEntry (bufs : List (String × List BEntry)) (svc : String) (e : BEntry) :
    lookupBuf (appendEntry bufs svc e) svc = lookupBuf bufs svc ++ [e] := by
  induction bufs with
  | nil => simp [appendEntry, lookupBuf]
  | cons p rest ih =>
    by_cases h : p.1 = svc
    · simp [appendEntry, lookupBuf, h]
    · simp [appendEntry, lookupBuf, h, ih]

theorem mem_appendEntry {bufs : List (String × List BEntry)} {svc : String} {e : BEntry}
    {p : String × List BEntry} (hp : p ∈ appendEntry bufs svc e) :
    p ∈ bufs ∨ (p.1 = svc ∧ p.2 = lookupBuf bufs svc ++ [e]) := by
  induction bufs with
  | nil =>
    simp [appendEntry] at hp
    subst hp
    simp [lookupBuf]
  | cons q rest ih =>
    by_cases h : q.1 = svc
    · simp [appendEntry, h] at hp
      rcases hp with hp | hp
      · right
        subst hp
        simp [lookupBuf, h]
      · exact Or.inl (List.mem_cons_of_mem _ hp)
    · simp [appendEntry, h] at hp
      rcases hp with hp | hp
      · exact Or.inl (by simp [hp])
      · rcases ih hp with hq | hq
        · exact Or.inl (List.mem_cons_of_mem _ hq)
        · right
          simpa [lookupBuf, h] using hq

theorem mem_clearBuf {bufs : List (String × List BEntry)} {svc : String}
    {p : String × List BEntry} (hp : p ∈ clearBuf bufs svc) :
    p.2 = [] ∨ (p ∈ bufs ∧ p.1 ≠ svc) := by
  induction bufs with
  | nil => simp [clearBuf] at hp
  | cons q rest ih =>
    by_cases h : q.1 = svc
    · simp [clearBuf, h] at hp
      rcases hp with hp | hp
      · left
        simp [hp]
      · rcases ih hp with hq | hq
        · exact Or.inl hq
        · exact Or.inr ⟨List.mem_cons_of_mem _ hq.1, hq.2⟩
    · simp [clearBuf, h] at hp
      rcases hp with hp | hp
      · subst hp
        exact Or.inr ⟨List.mem_cons_self _ _, h⟩
      · rcases ih hp with hq | hq
        · exact Or.inl hq
        · exact Or.inr ⟨List.mem_cons_of_mem _ hq.1, hq.2⟩

theorem map_fst_clearBuf (bufs : List (String × List BEntry)) (svc : String) :
    (clearBuf bufs svc).map Prod.fst = bufs.map Prod.fst := by
  induction bufs with
  | nil => simp [clearBuf]
  | cons q rest ih =>
    by_cases h : q.1 = svc
    · simp [clearBuf, h, ih]
    · simp [clearBuf, h, ih]

theorem lookupBuf_clearBuf_self (bufs : List (String × List BEntry)) (svc : String) :
    lookupBuf (clearBuf bufs svc) svc = [] := by
  induction bufs with
  | nil => simp [clearBuf, lookupBuf]
  | cons q rest ih =>
    by_cases h : q.1 = svc
    · simp [clearBuf, lookupBuf, h]
    · simp [clearBuf, lookupBuf, h, ih]

theorem lookupBuf_clearBuf_ne (bufs : List (String × List BEntry)) {svc s : String}
    (h : s ≠ svc) : lookupBuf (clearBuf bufs svc) s = lookupBuf bufs s := by
  have h2 : ¬ (svc = s) := fun hh => h hh.symm
  induction bufs with
  | nil => simp [clearBuf]
  | cons q rest ih =>
    by_cases hq : q.1 = svc
    · simp [clearBuf, lookupBuf, hq, h2, ih]
    · simp [clearBuf, lookupBuf, hq, ih]

theorem map_fst_appendEntry_sub {svc : String} {e : BEntry} :
    ∀ (bufs : List (String × List BEntry)) (x : String),
    x ∈ (appendEntry bufs svc e).map Prod.fst → x ∈ bufs.map Prod.fst ∨ x = svc := by
  intro bufs
  induction bufs with
  | nil =>
    intro x hx
    right
    simp only [appendEntry] at hx
    simpa using hx
  | cons q rest ih =>
    intro x hx
    simp only [appendEntry] at hx
    by_cases h : q.1 = svc
    · rw [if_pos h, List.map_cons, List.mem_cons] at hx
      rcases hx with hx | hx
      · exact Or.inl (by rw [List.map_cons, List.mem_cons]; exact Or.inl hx)
      · exact Or.inl (by rw [List.map_cons, List.mem_cons]; exact Or.inr hx)
    · rw [if_neg h, List.map_cons, List.mem_cons] at hx
      rcases hx with hx | hx
      · exact Or.inl (by rw [List.map_cons, List.mem_cons]; exact Or.inl hx)
      · rcases ih x hx with hm | hm
        · exact Or.inl (by rw [List.map_cons, List.mem_cons]; exact Or.inr hm)
        · exact Or.inr hm

theorem nodup_appendEntry {svc : String} {e : BEntry} :
    ∀ {bufs : List (String × List BEntry)}, (bufs.map Prod.fst).Nodup →
    ((appendEntry bufs svc e).map Prod.fst).Nodup := by
  intro bufs
  induction bufs with
  | nil =>
    intro _
    simp [appendEntry]
  | cons q rest ih =>
    intro h
    rw [List.map_cons, List.nodup_cons] at h
    by_cases hq : q.1 = svc
    · simp only [appendEntry, if_pos hq, List.map_cons, List.nodup_cons]
      exact ⟨h.1, h.2⟩
    · simp only [appendEntry, if_neg hq, List.map_cons, List.nodup_cons]
      refine ⟨?_, ih h.2⟩
      intro hx
      rcases map_fst_appendEntry_sub rest q.1 hx with hm | hm
      · exact h.1 hm
      · exact hq hm

theorem lookupBuf_eq_of_nodup :
    ∀ {bufs : List (String × List BEntry)}, (bufs.map Prod.fst).Nodup →
    ∀ {p : String × List BEntry}, p ∈ bufs → lookupBuf bufs p.1 = p.2 := by
  intro bufs
  induction bufs with
  | nil =>
    intro _ p hp
    simp at hp
  | cons q rest ih =>
    intro h p hp
    rw [List.map_cons, List.nodup_cons] at h
    rcases List.mem_cons.mp hp with hp | hp
    · subst hp
      simp [lookupBuf]
    · have hne : ¬ (q.1 = p.1) := by
        intro hh
        exact h.1 (hh ▸ List.mem_map_of_mem Prod.fst hp)
      simp only [lookupBuf, if_neg hne]
      exact ih h.2 hp

/-! ## Helper lemmas about flushService and flushPass -/

theorem flushService_split (f : String → Bool) (t : Nat) (g : Trigger)
    (bufs : List (String × List BEntry)) (s : String) :
    (lookupBuf bufs s = [] ∧ flushService f t g bufs s = (bufs, [], true))
    ∨ (lookupBuf bufs s ≠ []
       ∧ (flushService f t g bufs s).1 = clearBuf bufs s
       ∧ (flushService f t g bufs s).2.1 = [⟨t, s, lookupBuf bufs s, g, f s⟩]
       ∧ (flushService f t g bufs s).2.2 = f s) := by
  cases h : lookupBuf bufs s with
  | nil => exact Or.inl ⟨rfl, by simp [flushService, h]⟩
  | cons e rest =>
    refine Or.inr ⟨by simp, ?_, ?_, ?_⟩ <;> simp [flushService, h]

theorem map_fst_flushService (f : String → Bool) (t : Nat) (g : Trigger)
    (bufs : List (String × List BEntry)) (s : String) :
    ((flushService f t g bufs s).1).map Prod.fst = bufs.map Prod.fst := by
  rcases flushService_split f t g bufs s with ⟨_, h⟩ | ⟨_, h, _, _⟩
  · rw [h]
  · rw [h, map_fst_clearBuf]

theorem flushPass_nil (f : String → Bool) (t : Nat) (g : Trigger)
    (bufs : List (String × List BEntry)) :
    flushPass f t g [] bufs = (bufs, [], true) := rfl

theorem flushPass_cons (f : String → Bool) (t : Nat) (g : Trigger) (s : String)
    (rest : List String) (bufs : List (String × List BEntry)) :
    flushPass f t g (s :: rest) bufs =
      if (flushService f t g bufs s).2.2 then
        ((flushPass f t g rest (flushService f t g bufs s).1).1,
         (flushService f t g bufs s).2.1
           ++ (flushPass f t g rest (flushService f t g bufs s).1).2.1,
         (flushPass f t g rest (flushService f t g bufs s).1).2.2)
      else
        ((flushService f t g bufs s).1, (flushService f t g bufs s).2.1, false) := rfl

theorem mem_flushPass_buffers (f : String → Bool) (t : Nat) (g : Trigger) :
    ∀ (keys : List String) (bufs : List (String × List BEntry)),
    ∀ p ∈ (flushPass f t g keys bufs).1, p ∈ bufs ∨ p.2 = [] := by
  intro keys
  induction keys with
  | nil =>
    intro bufs p hp
    rw [flushPass_nil] at hp
    exact Or.inl hp
  | cons s rest ih =>
    intro bufs p hp
    have hstep : ∀ q, q ∈ (flushService f t g bufs s).1 → q ∈ bufs ∨ q.2 = [] := by
      intro q hq
      rcases flushService_split f t g bufs s with ⟨_, h⟩ | ⟨_, h, _, _⟩
      · rw [h] at hq
        exact Or.inl hq
      · rw [h] at hq
        rcases mem_clearBuf hq with hc | hc
        · exact Or.inr hc
        · exact Or.inl hc.1
    rw [flushPass_cons] at hp
    split at hp
    · rcases ih _ p hp with hm | hm
      · exact hstep p hm
      · exact Or.inr hm
    · exact hstep p hp

theorem flushPass_recs (f : String → Bool) (t : Nat) (g : Trigger) :
    ∀ (keys : List String) (bufs : List (String × List BEntry)),
    ∀ rec ∈ (flushPass f t g keys bufs).2.1,
      rec.trigger = g ∧ rec.entries ≠ [] ∧ rec.sent = f rec.svc ∧ rec.time = t := by
  intro keys
  induction keys with
  | nil =>
    intro bufs rec hrec
    rw [flushPass_nil] at hrec
    simp at hrec
  | cons s rest ih =>
    intro bufs rec hrec
    have hstep : ∀ r, r ∈ (flushService f t g bufs s).2.1 →
        r.trigger = g ∧ r.entries ≠ [] ∧ r.sent = f r.svc ∧ r.time = t := by
      intro r hr
      rcases flushService_split f t g bufs s with ⟨_, h⟩ | ⟨hne, _, h, _⟩
      · rw [h] at hr
        simp at hr
      · rw [h] at hr
        simp at hr
        subst hr
        exact ⟨rfl, hne, rfl, rfl⟩
    rw [flushPass_cons] at hrec
    split at hrec
    · rcases List.mem_append.mp hrec with hm | hm
      · exact hstep rec hm
      · exact ih _ rec hm
    · exact hstep rec hrec

theorem map_fst_flushPass (f : String → Bool) (t : Nat) (g : Trigger) :
    ∀ (keys : List String) (bufs : List (String × List BEntry)),
    ((flushPass f t g keys bufs).1).map Prod.fst = bufs.map Prod.fst := by
  intro keys
  induction keys with
  | nil =>
    intro bufs
    rw [flushPass_nil]
  | cons s rest ih =>
    intro bufs
    rw [flushPass_cons]
    split
    · rw [ih, map_fst_flushService]
    · rw [map_fst_flushService]

theorem lookupBuf_flushPass (f : String → Bool) (t : Nat) (g : Trigger) :
    ∀ (keys : List String) (bufs : List (String × List BEntry)) (s : String),
    lookupBuf (flushPass f t g keys bufs).1 s = lookupBuf bufs s
    ∨ lookupBuf (flushPass f t g keys bufs).1 s = [] := by
  intro keys
  induction keys with
  | nil =>
    intro bufs s
    rw [flushPass_nil]
    exact Or.inl rfl
  | cons k rest ih =>
    intro bufs s
    have hstep : lookupBuf (flushService f t g bufs k).1 s = lookupBuf bufs s
        ∨ lookupBuf (flushService f t g bufs k).1 s = [] := by
      rcases flushService_split f t g bufs k with ⟨_, h⟩ | ⟨_, h, _, _⟩
      · rw [h]
        exact Or.inl rfl
      · rw [h]
        by_cases hs : s = k
        · subst hs
          exact Or.inr (lookupBuf_clearBuf_self bufs s)
        · exact Or.inl (lookupBuf_clearBuf_ne bufs hs)
    rw [flushPass_cons]
    split
    · rcases ih (flushService f t g bufs k).1 s with hm | hm
      · rw [hm]
        exact hstep
      · exact Or.inr hm
    · exact hstep

theorem flushPass_rec_cleared (f : String → Bool) (t : Nat) (g : Trigger) :
    ∀ (keys : List String) (bufs : List (String × List BEntry)),
    ∀ rec ∈ (flushPass f t g keys bufs).2.1,
      lookupBuf (flushPass f t g keys bufs).1 rec.svc = [] := by
  intro keys
  induction keys with
  | nil =>
    intro bufs rec hrec
    rw [flushPass_nil] at hrec
    simp at hrec
  | cons k rest ih =>
    intro bufs rec hrec
    rw [flushPass_cons] at hrec
    rw [flushPass_cons]
    split at hrec
    · rename_i hok
      rw [if_pos hok]
      rcases List.mem_append.mp hrec with hm | hm
      · rcases flushService_split f t g bufs k with ⟨_, h⟩ | ⟨_, hb, h, _⟩
        · rw [h] at hm
          simp at hm
        · rw [h] at hm
          simp at hm
          have hsvc : rec.svc = k := by rw [hm]
          rw [hsvc]
          have hcl : lookupBuf (flushService f t g bufs k).1 k = [] := by
            rw [hb]
            exact lookupBuf_clearBuf_self bufs k
          rcases lookupBuf_flushPass f t g rest (flushService f t g bufs k).1 k with hx | hx
          · rw [hx, hcl]
          · exact hx
      · exact ih _ rec hm
    · rename_i hok
      rw [if_neg hok]
      rcases flushService_split f t g bufs k with ⟨_, h⟩ | ⟨_, hb, h, _⟩
      · rw [h] at hrec
        simp at hrec
      · rw [h] at hrec
        simp at hrec
        have hsvc : rec.svc = k := by rw [hrec]
        rw [hsvc, hb]
        exact lookupBuf_clearBuf_self bufs k

theorem flushPass_earlyStop (f : String → Bool) (t : Nat) (g : Trigger) :
    ∀ (keys : List String) (bufs : List (String × List BEntry)),
    (flushPass f t g keys bufs).2.2 = false →
    ∃ l r, (flushPass f t g keys bufs).2.1 = l ++ [r] ∧ r.sent = false
      ∧ ∀ x ∈ l, x.sent = true := by
  intro keys
  induction keys with
  | nil =>
    intro bufs hfail
    rw [flushPass_nil] at hfail
    simp at hfail
  | cons k rest ih =>
    intro bufs hfail
    rw [flushPass_cons] at hfail
    rw [flushPass_cons]
    split at hfail
    · rename_i hok
      rw [if_pos hok]
      rcases ih (flushService f t g bufs k).1 hfail with ⟨l2, r, hsplit, hrf, hall⟩
      refine ⟨(flushService f t g bufs k).2.1 ++ l2, r, ?_, hrf, ?_⟩
      · rw [hsplit, List.append_assoc]
      · intro x hx
        rcases List.mem_append.mp hx with hm | hm
        · rcases flushService_split f t g bufs k with ⟨_, h⟩ | ⟨_, _, h, hokv⟩
          · rw [h] at hm
            simp at hm
          · rw [h] at hm
            simp at hm
            rw [hm]
            simp only []
            rw [hokv] at hok
            exact hok
        · exact hall x hm
    · rename_i hok
      rw [if_neg hok]
      rcases flushService_split f t g bufs k with ⟨_, h⟩ | ⟨_, _, h, hokv⟩
      · rw [h] at hok
        simp at hok
      · have hfs : f k = false := by
          rw [hokv] at hok
          simpa using hok
        refine ⟨[], ⟨t, k, lookupBuf bufs k, g, f k⟩, ?_, ?_, ?_⟩
        · simpa using h
        · simpa using hfs
        · intro x hx
          simp at hx

theorem batcherFlush_def (f : String → Bool) (t : Nat) (g : Trigger)
    (bufs : List (String × List BEntry)) :
    batcherFlush f t g bufs = flushPass f t g (bufs.map Prod.fst) bufs := rfl

theorem flushPass_clears_of_true (f : String → Bool) (t : Nat) (g : Trigger)
    (hf : ∀ s, f s = true) :
    ∀ (keys : List String) (bufs : List (String × List BEntry)),
    (bufs.map Prod.fst).Nodup → (∀ p ∈ bufs, p.1 ∈ keys ∨ p.2 = []) →
    ∀ p ∈ (flushPass f t g keys bufs).1, p.2 = [] := by
  intro keys
  induction keys with
  | nil =>
    intro bufs _ hcov p hp
    rw [flushPass_nil] at hp
    rcases hcov p hp with hm | hm
    · simp at hm
    · exact hm
  | cons k rest ih =>
    intro bufs hnd hcov p hp
    rw [flushPass_cons] at hp
    split at hp
    · rcases flushService_split f t g bufs k with ⟨hemp, h⟩ | ⟨hne, hb, _, _⟩
      · rw [h] at hp
        refine ih bufs hnd ?_ p hp
        intro q hq
        rcases hcov q hq with hm | hm
        · rcases List.mem_cons.mp hm with hm2 | hm2
          · right
            have hq2 := lookupBuf_eq_of_nodup hnd hq
            rw [hm2, hemp] at hq2
            exact hq2.symm
          · exact Or.inl hm2
        · exact Or.inr hm
      · rw [hb] at hp
        refine ih (clearBuf bufs k) ?_ ?_ p hp
        · rw [map_fst_clearBuf]
          exact hnd
        · intro q hq
          rcases mem_clearBuf hq with hm | hm
          · exact Or.inr hm
          · rcases hcov q hm.1 with hc | hc
            · rcases List.mem_cons.mp hc with hc2 | hc2
              · exact absurd hc2 hm.2
              · exact Or.inl hc2
            · exact Or.inr hc
    · rename_i hok
      exfalso
      rcases flushService_split f t g bufs k with ⟨_, h⟩ | ⟨_, _, _, hokv⟩
      · rw [h] at hok
        simp at hok
      · rw [hokv, hf k] at hok
        exact hok rfl

/-! ## Helper lemmas about the ticker and the accumulation loop -/

theorem fireTicks_effects (maxWait : Nat) (f : String → Bool) :
    ∀ (fuel t : Nat) (st : BState),
    (∀ p ∈ (fireTicks maxWait f fuel t st).buffers, p ∈ st.buffers ∨ p.2 = [])
    ∧ (∀ rec ∈ (fireTicks maxWait f fuel t st).log,
        rec ∈ st.log ∨ (rec.trigger = .timer ∧ rec.entries ≠ []))
    ∧ ((fireTicks maxWait f fuel t st).buffers.map Prod.fst
        = st.buffers.map Prod.fst) := by
  intro fuel
  induction fuel with
  | zero =>
    intro t st
    exact ⟨fun p hp => Or.inl hp, fun rec hrec => Or.inl hrec, rfl⟩
  | succ fuel ih =>
    intro t st
    by_cases hd : st.deadline ≤ t
    · have hrw : fireTicks maxWait f (fuel + 1) t st
          = fireTicks maxWait f fuel t
              ⟨(batcherFlush f st.deadline .timer st.buffers).1,
               st.deadline + maxWait,
               st.log ++ (batcherFlush f st.deadline .timer st.buffers).2.1⟩ := by
        simp only [fireTicks, if_pos hd]
      rw [hrw]
      rcases ih t ⟨(batcherFlush f st.deadline .timer st.buffers).1,
        st.deadline + maxWait,
        st.log ++ (batcherFlush f st.deadline .timer st.buffers).2.1⟩ with ⟨h1, h2, h3⟩
      refine ⟨?_, ?_, ?_⟩
      · intro p hp
        rcases h1 p hp with hm | hm
        · rcases mem_flushPass_buffers f st.deadline .timer
              (st.buffers.map Prod.fst) st.buffers p (by rw [← batcherFlush_def]; exact hm)
            with hb | hb
          · exact Or.inl hb
          · exact Or.inr hb
        · exact Or.inr hm
      · intro rec hrec
        rcases h2 rec hrec with hm | hm
        · rcases List.mem_append.mp hm with ha | ha
          · exact Or.inl ha
          · have := flushPass_recs f st.deadline .timer
              (st.buffers.map Prod.fst) st.buffers rec (by rw [← batcherFlush_def]; exact ha)
            exact Or.inr ⟨this.1, this.2.1⟩
        · exact Or.inr hm
      · rw [h3]
        rw [batcherFlush_def, map_fst_flushPass]
    · have hrw : fireTicks maxWait f (fuel + 1) t st = st := by
        simp only [fireTicks, if_neg hd]
      rw [hrw]
      exact ⟨fun p hp => Or.inl hp, fun rec hrec => Or.inl hrec, rfl⟩

theorem fireTicks_inv (maxSize maxWait : Nat) (f : String → Bool)
    (hsize : 1 ≤ maxSize) (fuel t : Nat) (st : BState) (h : LoopInv maxSize st) :
    LoopInv maxSize (fireTicks maxWait f fuel t st) := by
  rcases fireTicks_effects maxWait f fuel t st with ⟨h1, h2, h3⟩
  refine ⟨?_, ?_, ?_⟩
  · intro p hp
    rcases h1 p hp with hm | hm
    · exact h.1 p hm
    · rw [hm]
      simpa using hsize
  · intro rec hrec
    rcases h2 rec hrec with hm | hm
    · exact h.2.1 rec hm
    · refine ⟨hm.2, ?_⟩
      intro hcon
      rw [hm.1] at hcon
      simp at hcon
  · rw [h3]
    exact h.2.2

theorem lookupBuf_cases (bufs : List (String × List BEntry)) (s : String) :
    lookupBuf bufs s = [] ∨ ∃ p, p ∈ bufs ∧ p.1 = s ∧ lookupBuf bufs s = p.2 := by
  induction bufs with
  | nil => exact Or.inl rfl
  | cons q rest ih =>
    by_cases h : q.1 = s
    · right
      exact ⟨q, List.mem_cons_self _ _, h, by simp [lookupBuf, h]⟩
    · rcases ih with hm | ⟨p, hp, hps, hpe⟩
      · left
        simpa [lookupBuf, h] using hm
      · right
        exact ⟨p, List.mem_cons_of_mem _ hp, hps, by simpa [lookupBuf, h] using hpe⟩

theorem stepRecv_eq (maxSize maxWait : Nat) (f : String → Bool) (st : BState)
    (t : Nat) (svc : String) :
    stepRecv maxSize maxWait f st t svc =
      if maxSize ≤ (lookupBuf (appendEntry (fireTicks maxWait f (t + 1) t st).buffers
          svc ⟨svc, t⟩) svc).length then
        ⟨(flushService f t .sizeHit (appendEntry (fireTicks maxWait f (t + 1) t st).buffers
            svc ⟨svc, t⟩) svc).1,
         t + maxWait,
         (fireTicks maxWait f (t + 1) t st).log
           ++ (flushService f t .sizeHit (appendEntry (fireTicks maxWait f (t + 1) t st).buffers
                svc ⟨svc, t⟩) svc).2.1⟩
      else
        ⟨appendEntry (fireTicks maxWait f (t + 1) t st).buffers svc ⟨svc, t⟩,
         (fireTicks maxWait f (t + 1) t st).deadline,
         (fireTicks maxWait f (t + 1) t st).log⟩ := rfl

theorem stepRecv_inv (maxSize maxWait : Nat) (f : String → Bool)
    (hsize : 1 ≤ maxSize) (st : BState) (t : Nat) (svc : String)
    (h : LoopInv maxSize st) :
    LoopInv maxSize (stepRecv maxSize maxWait f st t svc) := by
  rw [stepRecv_eq]
  have hst1 : LoopInv maxSize (fireTicks maxWait f (t + 1) t st) :=
    fireTicks_inv maxSize maxWait f hsize (t + 1) t st h
  revert hst1
  generalize fireTicks maxWait f (t + 1) t st = st1
  intro hst1
  have hlook : lookupBuf (appendEntry st1.buffers svc ⟨svc, t⟩) svc
      = lookupBuf st1.buffers svc ++ [⟨svc, t⟩] :=
    lookupBuf_appendEntry st1.buffers svc ⟨svc, t⟩
  have hlen : (lookupBuf st1.buffers svc).length < maxSize := by
    rcases lookupBuf_cases st1.buffers svc with hc | ⟨p, hp, _, hpe⟩
    · rw [hc]
      simpa using hsize
    · rw [hpe]
      exact hst1.1 p hp
  by_cases hflush :
      maxSize ≤ (lookupBuf (appendEntry st1.buffers svc ⟨svc, t⟩) svc).length
  · rw [if_pos hflush]
    have hlapp : lookupBuf (appendEntry st1.buffers svc ⟨svc, t⟩) svc ≠ [] := by
      rw [hlook]
      simp
    have hsz : (lookupBuf (appendEntry st1.buffers svc ⟨svc, t⟩) svc).length = maxSize := by
      rw [hlook] at hflush ⊢
      simp at hflush ⊢
      omega
    rcases flushService_split f t .sizeHit (appendEntry st1.buffers svc ⟨svc, t⟩) svc
      with ⟨hemp, _⟩ | ⟨_, hb, hr, _⟩
    · exact absurd hemp hlapp
    · refine ⟨?_, ?_, ?_⟩
      · intro p hp
        simp only [] at hp
        rw [hb] at hp
        rcases mem_clearBuf hp with hm | hm
        · rw [hm]
          simpa using hsize
        · rcases mem_appendEntry hm.1 with ha | ha
          · exact hst1.1 p ha
          · exact absurd ha.1 hm.2
      · intro rec hrec
        simp only [] at hrec
        rw [hr] at hrec
        rcases List.mem_append.mp hrec with hm | hm
        · exact hst1.2.1 rec hm
        · simp at hm
          subst hm
          refine ⟨hlapp, fun _ => hsz⟩
      · simp only []
        rw [hb, map_fst_clearBuf]
        exact nodup_appendEntry hst1.2.2
  · rw [if_neg hflush]
    refine ⟨?_, hst1.2.1, ?_⟩
    · intro p hp
      simp only [] at hp
      rcases mem_appendEntry hp with ha | ha
      · exact hst1.1 p ha
      · rw [ha.2]
        rw [hlook] at hflush
        simp at hflush ⊢
        omega
    · simp only []
      exact nodup_appendEntry hst1.2.2

theorem foldl_stepRecv_inv (maxSize maxWait : Nat) (f : String → Bool)
    (hsize : 1 ≤ maxSize) :
    ∀ (recvs : List (Nat × String)) (st : BState), LoopInv maxSize st →
    LoopInv maxSize
      (recvs.foldl (fun s p => stepRecv maxSize maxWait f s p.1 p.2) st) := by
  intro recvs
  induction recvs with
  | nil =>
    intro st h
    exact h
  | cons r rest ih =>
    intro st h
    rw [List.foldl_cons]
    exact ih _ (stepRecv_inv maxSize maxWait f hsize st r.1 r.2 h)

theorem batcherRun_eq (maxSize maxWait : Nat) (f : String → Bool)
    (recvs : List (Nat × String)) (cancelT : Nat) :
    batcherRun maxSize maxWait f recvs cancelT =
      ⟨(batcherFlush f cancelT .cancelled
          (fireTicks maxWait f (cancelT + 1) cancelT
            (recvs.foldl (fun st p => stepRecv maxSize maxWait f st p.1 p.2)
              ⟨[], maxWait, []⟩)).buffers).1,
       (fireTicks maxWait f (cancelT + 1) cancelT
          (recvs.foldl (fun st p => stepRecv maxSize maxWait f st p.1 p.2)
            ⟨[], maxWait, []⟩)).deadline,
       (fireTicks maxWait f (cancelT + 1) cancelT
          (recvs.foldl (fun st p => stepRecv maxSize maxWait f st p.1 p.2)
            ⟨[], maxWait, []⟩)).log
         ++ (batcherFlush f cancelT .cancelled
              (fireTicks maxWait f (cancelT + 1) cancelT
                (recvs.foldl (fun st p => stepRecv maxSize maxWait f st p.1 p.2)
                  ⟨[], maxWait, []⟩)).buffers).2.1⟩ := rfl

/-! ## Claim C1 -/

/-- Claim C1 counterexample: with buffers for sources `a` and `b` and the
delivery client failing on `a`, a timer-driven `Batcher.flush` reports the
failure and leaves `b`'s non-empty buffer unflushed — the claim that every
other source's non-empty buffer is still flushed is false. -/
theorem batcherFlush_partial_failure_cex :
    (batcherFlush (fun s => s != "a") 0 .timer
        [("a", [⟨"a", 0⟩]), ("b", [⟨"b", 0⟩])]).2.2 = false
    ∧ ¬ (∀ p ∈ [(("a" : String), [(⟨"a", 0⟩ : BEntry)]), ("b", [⟨"b", 0⟩])],
          p.2 ≠ [] →
          lookupBuf (batcherFlush (fun s => s != "a") 0 .timer
            [("a", [⟨"a", 0⟩]), ("b", [⟨"b", 0⟩])]).1 p.1 = []) := by
  constructor
  · decide
  · decide

/-- Claim C1 (amended): when a flush pass over all sources hits a failing
send, the pass stops there: every flush executed before it succeeded, the
failing source's events are dropped (its buffer is cleared, not re-queued),
and the buffers of sources not yet reached are left untouched for a later
trigger; each executed flush sends a non-empty batch with the sender's
verdict recorded. -/
theorem batcherFlush_early_stop_spec (f : String → Bool) (t : Nat) (g : Trigger)
    (bufs : List (String × List BEntry)) :
    ((batcherFlush f t g bufs).2.2 = false →
      ∃ l r, (batcherFlush f t g bufs).2.1 = l ++ [r] ∧ r.sent = false
        ∧ ∀ x ∈ l, x.sent = true)
    ∧ (∀ p ∈ (batcherFlush f t g bufs).1, p ∈ bufs ∨ p.2 = [])
    ∧ (∀ rec ∈ (batcherFlush f t g bufs).2.1,
        rec.entries ≠ [] ∧ rec.sent = f rec.svc)
    ∧ (∀ rec ∈ (batcherFlush f t g bufs).2.1,
        lookupBuf (batcherFlush f t g bufs).1 rec.svc = []) := by
  rw [batcherFlush_def]
  refine ⟨flushPass_earlyStop f t g _ bufs, mem_flushPass_buffers f t g _ bufs, ?_,
    flushPass_rec_cleared f t g _ bufs⟩
  intro rec hrec
  have h := flushPass_recs f t g (bufs.map Prod.fst) bufs rec hrec
  exact ⟨h.2.1, h.2.2.1⟩

/-- Claim C1 witness: a concrete failing pass produces exactly the
early-stop shape established by the theorem. -/
theorem batcherFlush_early_stop_spec_witness :
    ∃ l r, (batcherFlush (fun s => s != "x") 5 .timer
        [("x", [⟨"x", 1⟩]), ("y", [⟨"y", 2⟩])]).2.1 = l ++ [r]
      ∧ r.sent = false ∧ ∀ rec ∈ l, rec.sent = true :=
  (batcherFlush_early_stop_spec (fun s => s != "x") 5 .timer
    [("x", [⟨"x", 1⟩]), ("y", [⟨"y", 2⟩])]).1 (by decide)

/-! ## Claim C4 -/

/-- Claim C4 counterexample: in the run with `maxSize = 2`, `maxWait = 10`,
arrivals a@1, b@2, b@9, c@18 and cancellation at 30, the buffer of `c` is
flushed by the shared timer at 19 — only 1 entry and only 1 time unit after
it became non-empty — refuting "flushed exactly at the size threshold or
after maxWait"; and the entry a@1 is flushed at 19, more than `maxWait`
after it was enqueued (the size flush of `b` at 9 reset the shared ticker),
refuting the claimed per-event latency bound. -/
theorem batcher_timing_cex :
    ¬ flushedAtThreshold 2 10
        (batcherRun 2 10 (fun _ => true) [(1, "a"), (2, "b"), (9, "b"), (18, "c")] 30)
    ∧ ¬ noLateFlush 10
        (batcherRun 2 10 (fun _ => true) [(1, "a"), (2, "b"), (9, "b"), (18, "c")] 30) := by
  constructor
  · unfold flushedAtThreshold
    decide
  · unfold noLateFlush
    decide

/-- Claim C4 (amended): in every run of the accumulation loop with all sends
succeeding, each logged flush carries a non-empty batch, a size-triggered
flush carries exactly `maxSize` entries (the buffer is flushed the moment an
arrival fills it), and on cancellation the final pass leaves every buffer
empty.  Timer flushes happen at the shared `maxWait` ticker — possibly less
than `maxWait` after a buffer became non-empty, and, because a size flush
resets the shared ticker, an entry can stay buffered for up to two periods. -/
theorem batcherRun_trigger_spec (maxSize maxWait : Nat) (recvs : List (Nat × String))
    (cancelT : Nat) (hsize : 1 ≤ maxSize) :
    (∀ rec ∈ (batcherRun maxSize maxWait (fun _ => true) recvs cancelT).log,
       rec.entries ≠ [] ∧ (rec.trigger = .sizeHit → rec.entries.length = maxSize))
    ∧ (∀ p ∈ (batcherRun maxSize maxWait (fun _ => true) recvs cancelT).buffers,
       p.2 = []) := by
  rw [batcherRun_eq]
  have hinv0 : LoopInv maxSize ⟨[], maxWait, []⟩ := by
    refine ⟨?_, ?_, ?_⟩ <;> simp
  have hinv1 := foldl_stepRecv_inv maxSize maxWait (fun _ => true) hsize recvs
    ⟨[], maxWait, []⟩ hinv0
  have hinv2 := fireTicks_inv maxSize maxWait (fun _ => true) hsize (cancelT + 1) cancelT
    (recvs.foldl (fun st p => stepRecv maxSize maxWait (fun _ => true) st p.1 p.2)
      ⟨[], maxWait, []⟩) hinv1
  revert hinv2
  generalize fireTicks maxWait (fun _ => true) (cancelT + 1) cancelT
      (recvs.foldl (fun st p => stepRecv maxSize maxWait (fun _ => true) st p.1 p.2)
        ⟨[], maxWait, []⟩) = st2
  intro hinv2
  constructor
  · intro rec hrec
    rcases List.mem_append.mp hrec with hm | hm
    · exact hinv2.2.1 rec hm
    · have h := flushPass_recs (fun _ => true) cancelT .cancelled
        (st2.buffers.map Prod.fst) st2.buffers rec (by rw [← batcherFlush_def]; exact hm)
      refine ⟨h.2.1, ?_⟩
      intro hcon
      rw [h.1] at hcon
      simp at hcon
  · intro p hp
    rw [batcherFlush_def] at hp
    exact flushPass_clears_of_true (fun _ => true) cancelT .cancelled (fun _ => rfl)
      (st2.buffers.map Prod.fst) st2.buffers hinv2.2.2
      (fun q hq => Or.inl (List.mem_map_of_mem Prod.fst hq)) p hp

/-- Claim C4 witness: the amended trigger discipline instantiated on the
concrete run used in the counterexample. -/
theorem batcherRun_trigger_spec_witness :
    (∀ rec ∈ (batcherRun 2 10 (fun _ => true)
        [(1, "a"), (2, "b"), (9, "b"), (18, "c")] 30).log,
       rec.entries ≠ [] ∧ (rec.trigger = .sizeHit → rec.entries.length = 2))
    ∧ (∀ p ∈ (batcherRun 2 10 (fun _ => true)
        [(1, "a"), (2, "b"), (9, "b"), (18, "c")] 30).buffers,
       p.2 = []) :=
  batcherRun_trigger_spec 2 10 [(1, "a"), (2, "b"), (9, "b"), (18, "c")] 30 (by norm_num)

/-! ## Claim C2 -/

theorem isOpen_of_fst_true {cb : CircuitBreaker} {now : Nat}
    (h : (cb.isOpen now).1 = true) : cb.isOpen now = (true, cb) := by
  unfold CircuitBreaker.isOpen at h ⊢
  split_ifs at h ⊢
  simp_all

/-- Claim C2: the circuit breaker reports OPEN exactly when the consecutive
failure count has reached the threshold and strictly less than the
open-duration has passed since the last failure; once the open-duration has
elapsed the reported state is closed with the failure counter reset to zero;
when the breaker is open, `SendBatch` fails immediately with the
circuit-open error and performs zero attempts; when it is closed, the number
of attempts performed is exactly that of the retry loop. -/
theorem circuitBreaker_spec (cb : CircuitBreaker) (now : Nat) :
    ((cb.isOpen now).1 = true ↔
      cb.threshold ≤ cb.failures ∧ now - cb.lastFailure < cb.timeout)
    ∧ (cb.timeout ≤ now - cb.lastFailure →
        cb.isOpen now = (false, { cb with failures := 0 }))
    ∧ (∀ (ε : Type) (endTime : Nat) (cfg : Config) (fn : Nat → Option ε),
        (cb.isOpen now).1 = true →
        sendBatch cb now endTime cfg fn = (some .circuitOpen, cb, 0))
    ∧ (∀ (ε : Type) (endTime : Nat) (cfg : Config) (fn : Nat → Option ε),
        (cb.isOpen now).1 = false →
        (sendBatch cb now endTime cfg fn).2.2 = (retryDo cfg fn).2) := by
  refine ⟨?_, ?_, ?_, ?_⟩
  · constructor
    · intro h
      unfold CircuitBreaker.isOpen at h
      split_ifs at h with h1 h2
      simp_all
    · intro h
      unfold CircuitBreaker.isOpen
      rw [if_pos h]
  · intro h
    have h1 : ¬ (cb.threshold ≤ cb.failures ∧ now - cb.lastFailure < cb.timeout) := by
      intro hc
      obtain ⟨-, hc2⟩ := hc
      omega
    unfold CircuitBreaker.isOpen
    rw [if_neg h1, if_pos h]
  · intro ε endTime cfg fn hopen
    have heq := isOpen_of_fst_true hopen
    unfold sendBatch
    rw [if_pos hopen, heq]
  · intro ε endTime cfg fn hclosed
    unfold sendBatch
    rw [hclosed]
    simp only [Bool.false_eq_true, if_false]
    rcases hr : retryDo cfg fn with ⟨res, n⟩
    cases res <;> simp

/-- Claim C2 witness: a breaker at its threshold with a recent failure is
open at time 10 and rejects a send with zero attempts. -/
theorem circuitBreaker_spec_witness :
    ((CircuitBreaker.isOpen ⟨5, 0, 5, 60⟩ 10).1 = true)
    ∧ sendBatch ⟨5, 0, 5, 60⟩ 10 10 ⟨2, 1, 60, 2⟩ (fun _ => (none : Option Nat))
        = (some .circuitOpen, ⟨5, 0, 5, 60⟩, 0) :=
  ⟨(circuitBreaker_spec ⟨5, 0, 5, 60⟩ 10).1.mpr (by norm_num),
   (circuitBreaker_spec ⟨5, 0, 5, 60⟩ 10).2.2.1 Nat 10 ⟨2, 1, 60, 2⟩ _
     ((circuitBreaker_spec ⟨5, 0, 5, 60⟩ 10).1.mpr (by norm_num))⟩

/-! ## Claim C3 -/

theorem retryAux_fail_all {ε : Type} (fn : Nat → Option ε) (h : ∀ k, fn k ≠ none) :
    ∀ (r attempt : Nat), retryAux fn r attempt = (fn (attempt + r), r + 1) := by
  intro r
  induction r with
  | zero =>
    intro attempt
    cases hfa : fn attempt with
    | none => exact absurd hfa (h attempt)
    | some e => simp [retryAux, hfa]
  | succ r ih =>
    intro attempt
    cases hfa : fn attempt with
    | none => exact absurd hfa (h attempt)
    | some e =>
      simp only [retryAux, hfa]
      rw [ih (attempt + 1)]
      have harith : attempt + 1 + r = attempt + (r + 1) := by omega
      rw [harith]

theorem retryAux_first_none {ε : Type} (fn : Nat → Option ε) :
    ∀ (k r attempt : Nat), k ≤ r →
    fn (attempt + k) = none → (∀ j, j < k → fn (attempt + j) ≠ none) →
    retryAux fn r attempt = (none, k + 1) := by
  intro k
  induction k with
  | zero =>
    intro r attempt _ hnone _
    rw [Nat.add_zero] at hnone
    cases r <;> simp [retryAux, hnone]
  | succ k ih =>
    intro r attempt hk hnone hbefore
    cases r with
    | zero => omega
    | succ r =>
      have h0 : fn attempt ≠ none := by
        have := hbefore 0 (Nat.succ_pos k)
        simpa using this
      cases hfa : fn attempt with
      | none => exact absurd hfa h0
      | some e =>
        simp only [retryAux, hfa]
        rw [ih r (attempt + 1) (by omega) (by
            have harith : attempt + 1 + k = attempt + (k + 1) := by omega
            rw [harith]
            exact hnone)
          (by
            intro j hj
            have harith : attempt + 1 + j = attempt + (j + 1) := by omega
            rw [harith]
            exact hbefore (j + 1) (by omega))]

/-- Claim C3: with every attempt failing, `retry.Do` calls the attempt
function exactly `MaxRetries + 1` times and returns the error of the last
attempt; when the first success happens at attempt `k`, exactly `k + 1`
calls are made and no error is returned. -/
theorem retryDo_spec (ε : Type) :
    (∀ (cfg : Config) (fn : Nat → Option ε), (∀ k, fn k ≠ none) →
      retryDo cfg fn = (fn cfg.maxRetries, cfg.maxRetries + 1))
    ∧ (∀ (cfg : Config) (fn : Nat → Option ε) (k : Nat), k ≤ cfg.maxRetries →
      fn k = none → (∀ j, j < k → fn j ≠ none) →
      retryDo cfg fn = (none, k + 1)) := by
  constructor
  · intro cfg fn h
    unfold retryDo
    rw [retryAux_fail_all fn h cfg.maxRetries 0]
    rw [Nat.zero_add]
  · intro cfg fn k hk hnone hbefore
    unfold retryDo
    exact retryAux_first_none fn k cfg.maxRetries 0 hk
      (by rw [Nat.zero_add]; exact hnone)
      (fun j hj => by rw [Nat.zero_add]; exact hbefore j hj)

/-- Claim C3 witness: with `MaxRetries = 2` and a permanently failing
attempt, exactly 3 calls happen and the last error is returned; with an
immediately succeeding attempt, exactly one call happens and no error. -/
theorem retryDo_spec_witness :
    retryDo ⟨2, 1, 60, 2⟩ (fun _ => some 7) = (some 7, 3)
    ∧ retryDo ⟨2, 1, 60, 2⟩ (fun _ => (none : Option Nat)) = (none, 1) :=
  ⟨(retryDo_spec Nat).1 ⟨2, 1, 60, 2⟩ (fun _ => some 7) (fun k => by simp),
   (retryDo_spec Nat).2 ⟨2, 1, 60, 2⟩ (fun _ => none) 0 (by norm_num) rfl
     (fun j hj => by omega)⟩

/-! ## Claim C5 -/

/-- Claim C5 counterexample: 204 is a 2xx-class status, yet `sendRequest`
classifies it as a retryable "unexpected status code" failure rather than a
success — the claim that every 2xx-class response is success is false. -/
theorem sendRequest_2xx_cex :
    200 ≤ 204 ∧ 204 < 300
    ∧ sendRequest (.status 204) = some (.unexpectedStatus 204) := by
  refine ⟨by norm_num, by norm_num, ?_⟩
  decide

theorem retryDo_first_success {ε : Type} (cfg : Config) (fn : Nat → Option ε)
    (h : fn 0 = none) : retryDo cfg fn = (none, 1) := by
  unfold retryDo
  exact retryAux_first_none fn 0 cfg.maxRetries 0 (Nat.zero_le _)
    (by rw [Nat.add_zero]; exact h)
    (fun j hj => absurd hj (Nat.not_lt_zero j))

/-- Claim C5 (amended): a 4xx-class response is terminal and reported as
success of the attempt — no further attempts are made, the caller gets no
error, and the circuit breaker records a success; a 5xx-class response or a
transport error is a retryable failure; statuses 200 and 201 are success;
any other status (including 2xx statuses other than 200/201, e.g. 204) is a
retryable "unexpected status code" failure. -/
theorem sendRequest_classification_spec :
    (∀ code, 400 ≤ code → code < 500 → sendRequest (.status code) = none)
    ∧ (∀ code, 500 ≤ code → sendRequest (.status code) = some (.serverError code))
    ∧ sendRequest .transportError = some .transport
    ∧ (sendRequest (.status 200) = none ∧ sendRequest (.status 201) = none)
    ∧ (∀ code, code < 400 → code ≠ 200 → code ≠ 201 →
        sendRequest (.status code) = some (.unexpectedStatus code))
    ∧ (∀ (cb : CircuitBreaker) (now endTime : Nat) (cfg : Config)
        (outcomes : Nat → HttpOutcome) (code : Nat),
        (cb.isOpen now).1 = false → outcomes 0 = .status code →
        400 ≤ code → code < 500 →
        sendBatch cb now endTime cfg (fun k => sendRequest (outcomes k))
          = (none, recordSuccess (cb.isOpen now).2, 1)) := by
  refine ⟨?_, ?_, rfl, ⟨by decide, by decide⟩, ?_, ?_⟩
  · intro code h4 h5
    simp only [sendRequest]
    rw [if_neg (by omega), if_pos h4]
  · intro code h5
    simp only [sendRequest]
    rw [if_pos h5]
  · intro code hlt h200 h201
    simp only [sendRequest]
    rw [if_neg (by omega), if_neg (by omega), if_pos (by exact ⟨h200, h201⟩)]
  · intro cb now endTime cfg outcomes code hclosed hout h4 h5
    have hfirst : sendRequest (outcomes 0) = none := by
      rw [hout]
      simp only [sendRequest]
      rw [if_neg (by omega), if_pos h4]
    have hret := retryDo_first_success cfg (fun k => sendRequest (outcomes k)) hfirst
    unfold sendBatch
    rw [hclosed]
    simp only [Bool.false_eq_true, if_false]
    rw [hret]

/-- Claim C5 witness: a 404 first attempt yields immediate success of the
batch send with exactly one attempt and a success recorded on the breaker. -/
theorem sendRequest_classification_spec_witness :
    sendRequest (.status 404) = none
    ∧ sendBatch (newCircuitBreaker 5 60) 0 0 ⟨3, 1, 60, 2⟩
        (fun k => sendRequest (if k = 0 then .status 404 else .status 200))
        = (none, recordSuccess ((newCircuitBreaker 5 60).isOpen 0).2, 1) :=
  ⟨sendRequest_classification_spec.1 404 (by norm_num) (by norm_num),
   sendRequest_classification_spec.2.2.2.2.2 (newCircuitBreaker 5 60) 0 0 ⟨3, 1, 60, 2⟩
     (fun k => if k = 0 then .status 404 else .status 200) 404
     (by decide) rfl (by norm_num) (by norm_num)⟩

/-! ## Claim C6 -/

theorem one_le_pow_rat (a : ℚ) (h : 1 ≤ a) : ∀ n : Nat, 1 ≤ a ^ n := by
  intro n
  induction n with
  | zero => simp
  | succ n ih =>
    rw [pow_succ]
    have h0 : (0:ℚ) ≤ a ^ n := le_trans zero_le_one ih
    have hmul := mul_le_mul ih h zero_le_one h0
    linarith

/-- Claim C6: the computed inter-attempt wait equals
`min(MaxWait, InitialWait * Multiplier ^ attempt)` perturbed by the jitter
factor `1 + 0.25 * (2u - 1)` for `u ∈ [0, 1]` and floored at `InitialWait`;
consequently, for any `InitialWait ≤ MaxWait` (both non-negative) and
`Multiplier ≥ 1`, every possible wait lies in
`[InitialWait, MaxWait * 1.25]`. -/
theorem calculateBackoff_spec (attempt : Nat) (cfg : Config) (u : ℚ)
    (h0 : 0 ≤ cfg.initialWait) (h1 : cfg.initialWait ≤ cfg.maxWait)
    (hm : 1 ≤ cfg.multiplier) (hu0 : 0 ≤ u) (hu1 : u ≤ 1) :
    calculateBackoff attempt cfg u
      = max cfg.initialWait
          (min cfg.maxWait (cfg.initialWait * cfg.multiplier ^ attempt)
            * (1 + (2 * u - 1) / 4))
    ∧ cfg.initialWait ≤ calculateBackoff attempt cfg u
    ∧ calculateBackoff attempt cfg u ≤ cfg.maxWait * (5 / 4) := by
  have hW : (0:ℚ) ≤ cfg.maxWait := le_trans h0 h1
  have hpow : 1 ≤ cfg.multiplier ^ attempt := one_le_pow_rat cfg.multiplier hm attempt
  have hb1 : 0 ≤ cfg.initialWait * cfg.multiplier ^ attempt :=
    mul_nonneg h0 (le_trans zero_le_one hpow)
  by_cases hcap : cfg.maxWait < cfg.initialWait * cfg.multiplier ^ attempt
  · have hmin : min cfg.maxWait (cfg.initialWait * cfg.multiplier ^ attempt)
        = cfg.maxWait := min_eq_left hcap.le
    have hkey : cfg.maxWait * (1/4) * (2 * u - 1) ≤ cfg.maxWait * (1/4) * 1 :=
      mul_le_mul_of_nonneg_left (by linarith) (by linarith)
    simp only [calculateBackoff, if_pos hcap, hmin]
    have hring : cfg.maxWait * (1 + (2 * u - 1) / 4)
        = cfg.maxWait + cfg.maxWait * (1/4) * (2 * u - 1) := by ring
    by_cases hfloor :
        cfg.maxWait + cfg.maxWait * (1/4) * (2 * u - 1) < cfg.initialWait
    · rw [if_pos hfloor]
      refine ⟨?_, le_refl _, by linarith⟩
      rw [hring]
      exact (max_eq_left hfloor.le).symm
    · rw [if_neg hfloor]
      push_neg at hfloor
      refine ⟨?_, hfloor, by linarith⟩
      rw [hring]
      exact (max_eq_right hfloor).symm
  · have hble : cfg.initialWait * cfg.multiplier ^ attempt ≤ cfg.maxWait :=
      le_of_not_lt hcap
    have hmin : min cfg.maxWait (cfg.initialWait * cfg.multiplier ^ attempt)
        = cfg.initialWait * cfg.multiplier ^ attempt := min_eq_right hble
    have hkey : cfg.initialWait * cfg.multiplier ^ attempt * (1/4) * (2 * u - 1)
        ≤ cfg.initialWait * cfg.multiplier ^ attempt * (1/4) * 1 :=
      mul_le_mul_of_nonneg_left (by linarith) (by linarith)
    simp only [calculateBackoff, if_neg hcap, hmin]
    have hring : cfg.initialWait * cfg.multiplier ^ attempt * (1 + (2 * u - 1) / 4)
        = cfg.initialWait * cfg.multiplier ^ attempt
          + cfg.initialWait * cfg.multiplier ^ attempt * (1/4) * (2 * u - 1) := by ring
    by_cases hfloor :
        cfg.initialWait * cfg.multiplier ^ attempt
          + cfg.initialWait * cfg.multiplier ^ attempt * (1/4) * (2 * u - 1)
        < cfg.initialWait
    · rw [if_pos hfloor]
      refine ⟨?_, le_refl _, by linarith⟩
      rw [hring]
      exact (max_eq_left hfloor.le).symm
    · rw [if_neg hfloor]
      push_neg at hfloor
      refine ⟨?_, hfloor, by linarith⟩
      rw [hring]
      exact (max_eq_right hfloor).symm

/-- Claim C6 witness: the bounds instantiated at attempt 3 with
`InitialWait = 1`, `MaxWait = 60`, `Multiplier = 2` and maximal jitter. -/
theorem calculateBackoff_spec_witness :
    calculateBackoff 3 ⟨5, 1, 60, 2⟩ 1
      = max (1:ℚ) (min 60 ((1:ℚ) * 2 ^ 3) * (1 + (2 * 1 - 1) / 4))
    ∧ (1:ℚ) ≤ calculateBackoff 3 ⟨5, 1, 60, 2⟩ 1
    ∧ calculateBackoff 3 ⟨5, 1, 60, 2⟩ 1 ≤ 60 * (5 / 4) :=
  calculateBackoff_spec 3 ⟨5, 1, 60, 2⟩ 1 (by norm_num) (by norm_num) (by norm_num)
    (by norm_num) (by norm_num)

/-! ## Claim C7 -/

/-- Claim C7: for a non-empty batch, a duplicate-key failure of the bulk
insert is absorbed as success, while any other bulk-insert failure is
surfaced to the caller. -/
theorem insertBatch_duplicateKey_spec (collPfx : String) (b : LogBatch)
    (h : b.entries ≠ []) :
    (insertBatch collPfx b .duplicateKey).1 = none
    ∧ ∀ m, (insertBatch collPfx b (.otherError m)).1
        = some ("failed to insert batch: " ++ m) := by
  have he : b.entries.isEmpty = false := by
    cases hb : b.entries with
    | nil => exact absurd hb h
    | cons x xs => rfl
  refine ⟨?_, fun m => ?_⟩ <;> simp [insertBatch, he]

/-- Claim C7 witness: the duplicate-key absorption and error propagation on
a concrete one-entry batch. -/
theorem insertBatch_duplicateKey_spec_witness :
    (insertBatch "logs_" ⟨"svc", [⟨"svc", "h", "f", "l", 0, 1⟩]⟩ .duplicateKey).1 = none
    ∧ ∀ m, (insertBatch "logs_" ⟨"svc", [⟨"svc", "h", "f", "l", 0, 1⟩]⟩ (.otherError m)).1
        = some ("failed to insert batch: " ++ m) :=
  insertBatch_duplicateKey_spec "logs_" ⟨"svc", [⟨"svc", "h", "f", "l", 0, 1⟩]⟩ (by simp)

/-! ## Claim C8 -/

/-- Claim C8: when the loaded persisted state has an entry for the watched
path, reading starts at the saved byte offset; when it has none, reading
starts at end-of-file, so no previously existing byte is emitted. -/
theorem tailFile_start_spec (st : List (String × FileState)) (path : String)
    (fileLen : Int) :
    (∀ fs, lookupState st path = some fs →
       resolveOffset fileLen (tailStartLocation st path) = fs.offset)
    ∧ (lookupState st path = none →
       resolveOffset fileLen (tailStartLocation st path) = fileLen) := by
  constructor
  · intro fs hfs
    simp [tailStartLocation, hfs, resolveOffset]
  · intro hn
    simp [tailStartLocation, hn, resolveOffset]

/-- Claim C8 witness: a saved offset of 42 is resumed; an unknown path
starts at the file's end. -/
theorem tailFile_start_spec_witness :
    resolveOffset 100 (tailStartLocation [("app.log", ⟨42, 7, 3⟩)] "app.log") = 42
    ∧ resolveOffset 100 (tailStartLocation [("app.log", ⟨42, 7, 3⟩)] "other.log") = 100 :=
  ⟨(tailFile_start_spec [("app.log", ⟨42, 7, 3⟩)] "app.log" 100).1 ⟨42, 7, 3⟩ (by decide),
   (tailFile_start_spec [("app.log", ⟨42, 7, 3⟩)] "other.log" 100).2 (by decide)⟩

/-! ## Claim C9 -/

/-- Claim C9: the resolved collection name is the configured namespace
followed by the service identifier lowercased with every character outside
`[a-z0-9_]` replaced by an underscore; in particular `"Web API!"` resolves
to `"<namespace>web_api_"`. -/
theorem sanitizeCollectionName_spec :
    (∀ collPfx s, sanitizeCollectionName collPfx s = specSanitizedName collPfx s)
    ∧ ∀ collPfx, sanitizeCollectionName collPfx "Web API!" = collPfx ++ "web_api_" := by
  constructor
  · intro collPfx s
    simp only [sanitizeCollectionName, specSanitizedName, List.map_map]
    rfl
  · intro collPfx
    have h : String.mk (("Web API!".data.map Char.toLower).map sanitizeChar)
        = "web_api_" := by decide
    rw [sanitizeCollectionName, h]

/-! ## Claim C10 -/

/-- Claim C10: a batch with an empty entry list makes `InsertBatch` return
success immediately: no collection is resolved, no index is ensured, no
document is submitted, whatever the would-be bulk outcome. -/
theorem insertBatch_empty_spec (collPfx svc : String) (bulk : BulkResult) :
    insertBatch collPfx ⟨svc, []⟩ bulk = (none, ⟨none, false, []⟩) := by
  simp [insertBatch]

end Logl

